import Mathlib

set_option maxHeartbeats 1000000

/-!
Verification of the price-extraction core of `price_tracker.py`
(`AmazonPriceTracker`).  Python floats are modelled by exact rationals
(built through `mkRat` so that concrete runs reduce in the kernel),
strings by `String`/`List Char` (ASCII digits), and the retry loop of
`get_price` by a list of per-attempt fetch outcomes.  All definitions are
translated from the source file; `parse_priceNoEuro` is the one
spec-worded variant (the parser with its third pattern removed), used to
compare against the source parser.
-/

namespace PriceTracker

-- Price validation: `validate_price` (price_tracker.py lines 255-257),
-- `0.01 <= price <= 50000`.

def validate_price (price : ℚ) : Bool :=
  decide (mkRat 1 100 ≤ price ∧ price ≤ 50000)

-- Retry backoff: the sleep computed at the top of each `get_price`
-- iteration (lines 156-162).  `none` means no backoff sleep happens
-- (the first attempt); otherwise the slept duration in seconds, given
-- the jitter drawn by `random.uniform(-0.5, 0.5)`.
-- `base_delay = 2 + attempt * 1.5`, `delay = max(1, base_delay + jitter)`.

def backoff_delay (attempt : ℕ) (jitter : ℚ) : Option ℚ :=
  if 0 < attempt then
    some (max 1 ((2 + (attempt : ℚ) * (3/2)) + jitter))
  else
    none

-- Price history: `update_price_history` (lines 259-273).  The history
-- dict is modelled as a total map from product name to its entry list
-- (a missing key and an empty list are observably the same); an entry
-- is a (price, timestamp) pair, the timestamp string standing for
-- `datetime.now().isoformat()`.  `l[-100:]` is `l.drop (l.length - 100)`.

def update_price_history (hist : String → List (ℚ × String)) (pn : String)
    (price : ℚ) (ts : String) : String → List (ℚ × String) :=
  fun k =>
    if k = pn then
      let l := hist pn ++ [(price, ts)]
      if 100 < l.length then l.drop (l.length - 100) else l
    else hist k

-- Bot detection (lines 176-190): a case-insensitive substring scan of
-- the response body (`response.text.lower()`) for a fixed list of
-- indicator phrases.

def lowerStr (s : String) : String := ⟨s.data.map Char.toLower⟩

def listPre : List Char → List Char → Bool
  | [], _ => true
  | _ :: _, [] => false
  | c :: cs, d :: ds => c == d && listPre cs ds

def containsSub (needle hay : List Char) : Bool :=
  listPre needle hay ||
    match hay with
    | [] => false
    | _ :: t => containsSub needle t

def bot_indicators : List String :=
  ["robot check", "blocked", "captcha", "unusual traffic",
   "automated queries", "sorry, we just need to make sure you\x27re not a robot",
   "enter the characters you see below", "type the characters you see in this image"]

def is_blocked (response_text : String) : Bool :=
  bot_indicators.any (fun ind => containsSub ind.data (lowerStr response_text).data)

-- Price parsing: `parse_price` (lines 228-253).
-- Step 1: `re.sub(r'[^\d.,\-]', '', price_text)` keeps only digits,
-- dots, commas and minus signs.

def keepChar (c : Char) : Bool := c.isDigit || c == '.' || c == ',' || c == '-'

def clean (l : List Char) : List Char := l.filter keepChar

-- `price_str = match.group(1).replace(',', '')`.

def removeCommas (l : List Char) : List Char := l.filter (fun c => c != ',')

-- Helpers for the leftmost-greedy search of the three regex patterns
-- on the cleaned text.  `takeDigs`/`dropDigs` split off a maximal digit
-- run (greedy `\d+`/`\d*`), `skipNon` advances to the first digit (the
-- leftmost position where any of the three patterns can start).

def takeDigs : List Char → List Char
  | [] => []
  | c :: r => if c.isDigit then c :: takeDigs r else []

def dropDigs : List Char → List Char
  | [] => []
  | c :: r => if c.isDigit then dropDigs r else c :: r

def skipNon : List Char → List Char
  | [] => []
  | c :: r => if c.isDigit then c :: r else skipNon r

-- Greedy `(?:,\d{3})*`: repeatedly consume a comma followed by exactly
-- three digits; the first component is the consumed text, the second
-- the remainder.

def groupsLoop : List Char → List Char × List Char
  | x :: a :: b :: c :: r =>
      if x == ',' && a.isDigit && b.isDigit && c.isDigit then
        (x :: a :: b :: c :: (groupsLoop r).1, (groupsLoop r).2)
      else ([], x :: a :: b :: c :: r)
  | l => ([], l)

-- Greedy `\.?\d*` after `\d+(?:,\d{3})*`: an optional dot then digits.
-- When the group loop stopped inside a digit run (for example after
-- "1,234" in "1,2345"), the bare `\d*` still consumes those digits.

def tailPart : List Char → List Char
  | [] => []
  | c :: r => if c == '.' then c :: takeDigs r else takeDigs (c :: r)

-- Greedy `\.?\d*` after a maximal `\d+` (pattern 2): the next character
-- is never a digit, so either a dot plus digits or nothing.

def tailNoComma : List Char → List Char
  | [] => []
  | c :: r => if c == '.' then c :: takeDigs r else []

-- `re.search(r'(\d+(?:,\d{3})*\.?\d*)', cleaned)`: the match starts at
-- the first digit; every later piece of the pattern is optional, so the
-- greedy walk below is the full backtracking search.

def pat1Match (l : List Char) : Option (List Char) :=
  if (skipNon l).isEmpty then none
  else
    some (takeDigs (skipNon l) ++ (groupsLoop (dropDigs (skipNon l))).1 ++
      tailPart (groupsLoop (dropDigs (skipNon l))).2)

-- `re.search(r'(\d+\.?\d*)', cleaned)`.

def pat2Match (l : List Char) : Option (List Char) :=
  if (skipNon l).isEmpty then none
  else some (takeDigs (skipNon l) ++ tailNoComma (dropDigs (skipNon l)))

-- `re.search(r'(\d+,\d+)', cleaned)`: scan for a digit run immediately
-- followed by a comma and at least one digit; `run` accumulates the
-- (reversed) digit run seen so far.

def pat3Aux : List Char → List Char → Option (List Char)
  | _, [] => none
  | run, c :: r =>
      if c.isDigit then
        pat3Aux (c :: run) r
      else if c == ',' && !run.isEmpty && !(takeDigs r).isEmpty then
        some (run.reverse ++ c :: takeDigs r)
      else
        pat3Aux [] r

def pat3Match (l : List Char) : Option (List Char) := pat3Aux [] l

-- `float(price_str)` on the comma-free match text: the exact rational
-- value of the decimal numeral `ip.fp` (integer part, fraction part).

def digitVal (c : Char) : ℕ := c.toNat - 48

def digitsNat (l : List Char) : ℕ := l.foldl (fun a c => a * 10 + digitVal c) 0

def decimalVal (ip fp : List Char) : ℚ :=
  mkRat (digitsNat ip * 10 ^ fp.length + digitsNat fp) (10 ^ fp.length)

def pyFloat (l : List Char) : Option ℚ :=
  match dropDigs l with
  | [] => if (takeDigs l).isEmpty then none else some (decimalVal (takeDigs l) [])
  | c :: fp =>
      if c == '.' && fp.all Char.isDigit && !((takeDigs l).isEmpty && fp.isEmpty) then
        some (decimalVal (takeDigs l) fp)
      else none

-- The `for pattern in price_patterns` loop: first pattern whose match
-- also converts with `float` wins; a match whose conversion fails falls
-- through to the next pattern, like the `except ... continue`.

def tryPat (p : List Char → Option (List Char)) (cleaned : List Char) : Option ℚ :=
  match p cleaned with
  | some m => pyFloat (removeCommas m)
  | none => none

def runPatterns : List (List Char → Option (List Char)) → List Char → Option ℚ
  | [], _ => none
  | p :: ps, cleaned =>
      match tryPat p cleaned with
      | some v => some v
      | none => runPatterns ps cleaned

def price_patterns : List (List Char → Option (List Char)) :=
  [pat1Match, pat2Match, pat3Match]

def parse_price (price_text : String) : Option ℚ :=
  if price_text.data.isEmpty then none
  else runPatterns price_patterns (clean price_text.data)

/-- Spec-worded variant for the refinement claim C6: `parse_price` with
its third ("European comma-decimal") pattern removed. -/
def parse_priceNoEuro (price_text : String) : Option ℚ :=
  if price_text.data.isEmpty then none
  else runPatterns [pat1Match, pat2Match] (clean price_text.data)

-- Shape of a thousands-grouped numeral for C3: `commaGroups gs` is the
-- text ",g1,g2,..." of the comma-led three-digit groups, `flatGroups gs`
-- the same digits without the commas.

def commaGroups : List (List Char) → List Char
  | [] => []
  | g :: gs => ',' :: (g ++ commaGroups gs)

def flatGroups : List (List Char) → List Char
  | [] => []
  | g :: gs => g ++ flatGroups gs

-- Price extraction and the retry loop: `get_price` (lines 135-226).
-- The parsed page (BeautifulSoup) is abstracted as the function sending
-- a CSS selector to the text contents of its matching elements, in
-- document order; one fetch attempt either raises (timeout, connection
-- error, non-2xx status via `raise_for_status`, or any other exception,
-- all caught by the same retry arms) or yields the response body text
-- together with the parsed page.  Sleeps and header randomization only
-- affect timing and the outbound request, so they do not appear in the
-- returned value.

def price_selectors : List String :=
  ["span.a-offscreen",
   "span#priceblock_dealprice",
   "span#priceblock_ourprice",
   "span.a-price-whole",
   "span.a-price.a-text-price.a-size-medium.apexPriceToPay",
   "span.a-price-range",
   ".a-price .a-offscreen",
   "#corePrice_feature_div .a-price .a-offscreen",
   "#apex_desktop .a-price .a-offscreen",
   ".a-price-to-pay .a-offscreen",
   "#priceblock_pactprice",
   ".a-price.a-text-price.a-size-medium.apexPriceToPay .a-offscreen"]

-- `price_element.get_text().strip()`.

def dropSpaces : List Char → List Char
  | [] => []
  | c :: r => if c.isWhitespace then dropSpaces r else c :: r

def pyStrip (s : String) : String := ⟨(dropSpaces (dropSpaces s.data).reverse).reverse⟩

-- `price = self.parse_price(price_text)` followed by
-- `if price and self.validate_price(price): return price` (a price of
-- 0.0 is falsy in Python and is skipped).

def candidate (price_text : String) : Option ℚ :=
  match parse_price price_text with
  | some price => if price ≠ 0 ∧ validate_price price = true then some price else none
  | none => none

def selResult (soup : String → List String) (selector : String) : Option ℚ :=
  (soup selector).findSome? (fun t => candidate (pyStrip t))

def find_price (soup : String → List String) : Option ℚ :=
  price_selectors.findSome? (selResult soup)

inductive FetchResult where
  | err : FetchResult
  | ok : String → (String → List String) → FetchResult

def get_price : List FetchResult → Option ℚ
  | [] => none
  | FetchResult.err :: rest => get_price rest
  | FetchResult.ok text soup :: rest =>
      if is_blocked text then get_price rest
      else
        match find_price soup with
        | some price => some price
        | none => get_price rest

-- Concrete fixtures used by the witness runs.

def soupW1 : String → List String :=
  fun sel => if sel = "span.a-offscreen" then ["$799.99"] else []

def soupW4 : String → List String :=
  fun sel =>
    if sel = "span.a-offscreen" then ["$10.50"]
    else if sel = "span#priceblock_ourprice" then ["$20.75"] else []

def runNetwork : List FetchResult := [FetchResult.err, FetchResult.err, FetchResult.err]

def blockedPage : FetchResult := FetchResult.ok "Robot Check" (fun _ => [])

def runBlocked : List FetchResult := [blockedPage, blockedPage, blockedPage]

def noPricePage : FetchResult := FetchResult.ok "Some product page" (fun _ => [])

def runNoPrice : List FetchResult := [noPricePage, noPricePage, noPricePage]

end PriceTracker

namespace PriceTracker

theorem getLast?_drop_of_lt {α : Type} (l : List α) (n : ℕ) (h : n < l.length) :
    (l.drop n).getLast? = l.getLast? := by
  rw [List.getLast?_eq_getElem?, List.getLast?_eq_getElem?, List.getElem?_drop,
    List.length_drop]
  congr 1
  omega

/-- C5: `validate_price v` is true exactly when `0.01 ≤ v ≤ 50000`; in
particular it rejects `0.0`, accepts `0.01` and `50000`, and rejects
`50000.01`. -/
theorem C5_validate_iff :
    (∀ v : ℚ, validate_price v = true ↔ (1/100 ≤ v ∧ v ≤ 50000)) ∧
    validate_price 0 = false ∧ validate_price (1/100) = true ∧
    validate_price 50000 = true ∧ validate_price (50000 + 1/100) = false := by
  have hiff : ∀ v : ℚ, validate_price v = true ↔ (1/100 ≤ v ∧ v ≤ 50000) := by
    intro v
    rw [validate_price, decide_eq_true_eq, Rat.mkRat_eq_div]
    norm_num
  refine ⟨hiff, by decide, ?_, by decide, ?_⟩
  · rw [hiff]
    norm_num
  · rw [Bool.eq_false_iff, Ne, hiff]
    push_neg
    intro h
    norm_num

/-- C8: for every attempt index `i ≥ 1` and jitter `j` in `[-1/2, 1/2]`,
the backoff slept before attempt `i` is `max 1 ((2 + 1.5 * i) + j)`
seconds, and no backoff sleep happens before the first attempt
(attempt index `0`). -/
theorem C8_backoff (i : ℕ) (j : ℚ) (hi : 1 ≤ i)
    (_hj1 : -(1/2) ≤ j) (_hj2 : j ≤ 1/2) :
    backoff_delay i j = some (max 1 ((2 + (3/2) * (i : ℚ)) + j)) ∧
    backoff_delay 0 j = none := by
  constructor
  · have hpos : 0 < i := hi
    simp [backoff_delay, hpos, mul_comm]
  · simp [backoff_delay]

theorem C8_backoff_witness :
    backoff_delay 1 0 = some (max 1 ((2 + (3/2) * ((1 : ℕ) : ℚ)) + 0)) ∧
    backoff_delay 0 0 = none :=
  C8_backoff 1 0 (by norm_num) (by norm_num) (by norm_num)

/-- C10: after `update_price_history`, the updated product holds at most
100 entries, namely the last 100 of its previous entries followed by the
new (price, timestamp) entry, with the new entry last, and every other
product is unchanged. -/
theorem C10_history (hist : String → List (ℚ × String)) (pn : String)
    (price : ℚ) (ts : String) :
    ((update_price_history hist pn price ts) pn).length ≤ 100 ∧
    (update_price_history hist pn price ts) pn =
      (hist pn ++ [(price, ts)]).drop ((hist pn ++ [(price, ts)]).length - 100) ∧
    ((update_price_history hist pn price ts) pn).getLast? = some (price, ts) ∧
    (∀ k, k ≠ pn → (update_price_history hist pn price ts) k = hist k) := by
  have hupd : (update_price_history hist pn price ts) pn =
      (hist pn ++ [(price, ts)]).drop ((hist pn ++ [(price, ts)]).length - 100) := by
    simp only [update_price_history, eq_self_iff_true, if_true]
    by_cases h : 100 < (hist pn ++ [(price, ts)]).length
    · rw [if_pos h]
    · rw [if_neg h]
      have h0 : (hist pn ++ [(price, ts)]).length - 100 = 0 := by omega
      rw [h0, List.drop_zero]
  have hlen : 0 < (hist pn ++ [(price, ts)]).length := by
    simp
  refine ⟨?_, hupd, ?_, ?_⟩
  · rw [hupd, List.length_drop]
    omega
  · rw [hupd, getLast?_drop_of_lt _ _ (by omega), List.getLast?_concat]
  · intro k hk
    simp [update_price_history, hk]

def histW : String → List (ℚ × String) := fun _ => []

theorem C10_history_witness :
    ((update_price_history histW "prod" (mkRat 5 1) "t1") "prod").length ≤ 100 ∧
    (update_price_history histW "prod" (mkRat 5 1) "t1") "other" = histW "other" :=
  ⟨(C10_history histW "prod" (mkRat 5 1) "t1").1,
   (C10_history histW "prod" (mkRat 5 1) "t1").2.2.2 "other" (by decide)⟩

/-- C7 counterexample: a page body consisting exactly of the phrase
"please enter the characters you see in this image" matches none of the
eight entries of `bot_indicators` (the list holds "type the characters
you see in this image" and "enter the characters you see below", neither
of which is a substring of it), so the classifier reports Clean
(`false`), refuting the claim that this phrase triggers Blocked. -/
theorem C7_counterexample :
    is_blocked "please enter the characters you see in this image" = false := by
  decide

/-- C7 (amended): any page body containing the indicator phrase "type the
characters you see in this image" (after lowercasing) is classified
Blocked; the classifier looks only at the body text, so an HTTP 200
response is still Blocked when the phrase is present. -/
theorem C7_blocked (text : String)
    (h : containsSub ("type the characters you see in this image").data
          (lowerStr text).data = true) :
    is_blocked text = true := by
  simp [is_blocked, bot_indicators, List.any_cons, List.any_nil, h]

theorem C7_blocked_witness :
    is_blocked "Type the characters you see in this image to continue" = true :=
  C7_blocked _ (by decide)

theorem takeDigs_all_digit (l : List Char) : ∀ c ∈ takeDigs l, c.isDigit = true := by
  induction l with
  | nil => simp [takeDigs]
  | cons c r ih =>
      by_cases h : c.isDigit
      · intro x hx
        rw [takeDigs, if_pos h] at hx
        rcases List.mem_cons.mp hx with rfl | hx
        · exact h
        · exact ih x hx
      · intro x hx
        rw [takeDigs, if_neg h] at hx
        simp at hx

theorem takeDigs_append (a b : List Char) (h : ∀ c ∈ a, c.isDigit = true) :
    takeDigs (a ++ b) = a ++ takeDigs b := by
  induction a with
  | nil => simp
  | cons c r ih =>
      have hc : c.isDigit = true := h c (List.mem_cons_self c r)
      rw [List.cons_append, takeDigs, if_pos hc,
        ih (fun x hx => h x (List.mem_cons_of_mem _ hx)), List.cons_append]

theorem dropDigs_append (a b : List Char) (h : ∀ c ∈ a, c.isDigit = true) :
    dropDigs (a ++ b) = dropDigs b := by
  induction a with
  | nil => simp
  | cons c r ih =>
      have hc : c.isDigit = true := h c (List.mem_cons_self c r)
      rw [List.cons_append, dropDigs, if_pos hc,
        ih (fun x hx => h x (List.mem_cons_of_mem _ hx))]

theorem takeDigs_cons_not (c : Char) (r : List Char) (h : c.isDigit = false) :
    takeDigs (c :: r) = [] := by
  rw [takeDigs, if_neg (by simp [h])]

theorem dropDigs_cons_not (c : Char) (r : List Char) (h : c.isDigit = false) :
    dropDigs (c :: r) = c :: r := by
  rw [dropDigs, if_neg (by simp [h])]

theorem takeDigs_of_all (a : List Char) (h : ∀ c ∈ a, c.isDigit = true) :
    takeDigs a = a := by
  have := takeDigs_append a [] h
  simpa [takeDigs] using this

theorem dropDigs_of_all (a : List Char) (h : ∀ c ∈ a, c.isDigit = true) :
    dropDigs a = [] := by
  have := dropDigs_append a [] h
  simpa [dropDigs] using this

theorem skipNon_nil_iff (l : List Char) :
    (skipNon l).isEmpty = true ↔ l.any Char.isDigit = false := by
  induction l with
  | nil => simp [skipNon]
  | cons c r ih =>
      by_cases h : c.isDigit
      · simp [skipNon, h]
      · simp [skipNon, h, ih]

theorem skipNon_head_digit (l : List Char) (c : Char) (r : List Char)
    (h : skipNon l = c :: r) : c.isDigit = true := by
  induction l with
  | nil => simp [skipNon] at h
  | cons x t ih =>
      by_cases hx : x.isDigit
      · rw [skipNon, if_pos hx] at h
        injection h with h1 h2
        exact h1 ▸ hx
      · rw [skipNon, if_neg hx] at h
        exact ih h

theorem groupsLoop_fst : ∀ l : List Char, ∀ x ∈ (groupsLoop l).1, x.isDigit = true ∨ x = ','
  | [] => by simp [groupsLoop]
  | [x] => by simp [groupsLoop]
  | [x, a] => by simp [groupsLoop]
  | [x, a, b] => by simp [groupsLoop]
  | x :: a :: b :: c :: r => by
      by_cases h : (x == ',' && a.isDigit && b.isDigit && c.isDigit) = true
      · rw [groupsLoop, if_pos h]
        simp only [Bool.and_eq_true, beq_iff_eq] at h
        intro y hy
        rcases List.mem_cons.mp hy with rfl | hy
        · exact Or.inr h.1.1.1
        rcases List.mem_cons.mp hy with rfl | hy
        · exact Or.inl h.1.1.2
        rcases List.mem_cons.mp hy with rfl | hy
        · exact Or.inl h.1.2
        rcases List.mem_cons.mp hy with rfl | hy
        · exact Or.inl h.2
        · exact groupsLoop_fst r y hy
      · rw [groupsLoop, if_neg h]
        simp

theorem tailPart_shape (l : List Char) :
    (∃ fp, tailPart l = '.' :: fp ∧ ∀ c ∈ fp, c.isDigit = true) ∨
    (∀ c ∈ tailPart l, c.isDigit = true) := by
  cases l with
  | nil => right; simp [tailPart]
  | cons c r =>
      by_cases h : (c == '.') = true
      · left
        have hc : c = '.' := by simpa using h
        exact ⟨takeDigs r, by rw [tailPart, if_pos h, hc], takeDigs_all_digit r⟩
      · right
        rw [tailPart, if_neg h]
        exact takeDigs_all_digit _

theorem char_digit_ne_comma (c : Char) (h : c.isDigit = true) : (c != ',') = true := by
  rcases eq_or_ne c ',' with rfl | hne
  · exact absurd h (by decide)
  · simp [hne]

theorem removeCommas_of_digits (a : List Char) (h : ∀ c ∈ a, c.isDigit = true) :
    removeCommas a = a :=
  List.filter_eq_self.mpr (fun c hc => char_digit_ne_comma c (h c hc))

theorem removeCommas_digits_mem (g : List Char)
    (hg : ∀ x ∈ g, x.isDigit = true ∨ x = ',') :
    ∀ x ∈ removeCommas g, x.isDigit = true := by
  intro x hx
  rw [removeCommas, List.mem_filter] at hx
  rcases hg x hx.1 with hd | rfl
  · exact hd
  · simpa using hx.2

theorem pyFloat_digits_dot (A fp : List Char) (hA : ∀ c ∈ A, c.isDigit = true)
    (hAne : A ≠ []) (hfp : ∀ c ∈ fp, c.isDigit = true) :
    pyFloat (A ++ '.' :: fp) = some (decimalVal A fp) := by
  have hdrop : dropDigs (A ++ '.' :: fp) = '.' :: fp := by
    rw [dropDigs_append _ _ hA, dropDigs_cons_not _ _ (by decide)]
  have htake : takeDigs (A ++ '.' :: fp) = A := by
    rw [takeDigs_append _ _ hA, takeDigs_cons_not _ _ (by decide), List.append_nil]
  have hall : fp.all Char.isDigit = true := List.all_eq_true.mpr hfp
  simp only [pyFloat, hdrop, htake]
  simp [hall, hAne]

theorem pyFloat_digits (A : List Char) (hA : ∀ c ∈ A, c.isDigit = true)
    (hAne : A ≠ []) : pyFloat A = some (decimalVal A []) := by
  have hdrop : dropDigs A = [] := dropDigs_of_all A hA
  have htake : takeDigs A = A := takeDigs_of_all A hA
  simp only [pyFloat, hdrop, htake]
  simp [hAne]

theorem removeCommas_append3 (a b c : List Char) (h : ∀ x ∈ a, x.isDigit = true) :
    removeCommas (a ++ b ++ c) = a ++ removeCommas b ++ removeCommas c := by
  simp only [removeCommas, List.filter_append]
  rw [List.filter_eq_self.mpr (fun x hx => char_digit_ne_comma x (h x hx))]

theorem pat1Match_parses (l m : List Char) (h : pat1Match l = some m) :
    ∃ v, pyFloat (removeCommas m) = some v := by
  rw [pat1Match] at h
  by_cases he : (skipNon l).isEmpty
  · rw [if_pos he] at h
    exact absurd h (by simp)
  · rw [if_neg he] at h
    injection h with h
    subst h
    cases hsk : skipNon l with
    | nil => rw [hsk] at he; exact absurd rfl he
    | cons c r =>
        have hc : c.isDigit = true := skipNon_head_digit l c r hsk
        have hD : ∀ x ∈ takeDigs (skipNon l), x.isDigit = true := takeDigs_all_digit _
        have hDne : takeDigs (skipNon l) ≠ [] := by
          rw [hsk, takeDigs, if_pos hc]
          exact List.cons_ne_nil _ _
        have hG : ∀ x ∈ removeCommas ((groupsLoop (dropDigs (skipNon l))).1),
            x.isDigit = true :=
          removeCommas_digits_mem _ (groupsLoop_fst _)
        rw [← hsk, removeCommas_append3 _ _ _ hD]
        rcases tailPart_shape ((groupsLoop (dropDigs (skipNon l))).2) with
          ⟨fp, hT, hfp⟩ | hT
        · have hTrc : removeCommas ('.' :: fp) = '.' :: fp := by
            rw [removeCommas, List.filter_cons, if_pos (by decide)]
            exact congrArg _ (removeCommas_of_digits fp hfp)
          rw [hT, hTrc]
          refine ⟨_, pyFloat_digits_dot _ fp ?_ ?_ hfp⟩
          · intro x hx
            rcases List.mem_append.mp hx with hx | hx
            · exact hD x hx
            · exact hG x hx
          · intro hemp
            exact hDne (List.append_eq_nil.mp hemp).1
        · rw [removeCommas_of_digits _ hT]
          refine ⟨_, pyFloat_digits _ ?_ ?_⟩
          · intro x hx
            rcases List.mem_append.mp hx with hx | hx
            · rcases List.mem_append.mp hx with hx' | hx'
              · exact hD x hx'
              · exact hG x hx'
            · exact hT x hx
          · intro hemp
            exact hDne (List.append_eq_nil.mp (List.append_eq_nil.mp hemp).1).1

theorem pat1Match_none_iff (l : List Char) :
    pat1Match l = none ↔ (skipNon l).isEmpty = true := by
  by_cases h : (skipNon l).isEmpty
  · simp [pat1Match, h]
  · simp [pat1Match, h]

theorem pat2Match_none (l : List Char) (h : (skipNon l).isEmpty = true) :
    pat2Match l = none := by
  simp [pat2Match, h]

theorem pat3Aux_none (l : List Char) (h : l.any Char.isDigit = false) :
    ∀ run, pat3Aux run l = none := by
  induction l with
  | nil => intro run; rfl
  | cons c r ih =>
      intro run
      rw [List.any_cons] at h
      have hc : c.isDigit = false := by
        cases hcd : c.isDigit
        · rfl
        · rw [hcd] at h; simp at h
      have hr : r.any Char.isDigit = false := by
        rw [hc] at h; simpa using h
      rw [pat3Aux, if_neg (by simp [hc])]
      have htd : (takeDigs r).isEmpty = true := by
        cases r with
        | nil => rfl
        | cons d rs =>
            have hd : d.isDigit = false := by
              rw [List.any_cons] at hr
              cases hdd : d.isDigit
              · rfl
              · rw [hdd] at hr; simp at hr
            rw [takeDigs_cons_not _ _ hd]
            rfl
      rw [if_neg (by simp [htd])]
      exact ih hr []

theorem pat3Match_none (l : List Char) (h : l.any Char.isDigit = false) :
    pat3Match l = none := by
  rw [pat3Match]
  exact pat3Aux_none l h []

theorem clean_any_digit (l : List Char) :
    (clean l).any Char.isDigit = l.any Char.isDigit := by
  induction l with
  | nil => rfl
  | cons c r ih =>
      rw [clean, List.filter_cons]
      by_cases h : keepChar c = true
      · rw [if_pos h, List.any_cons, List.any_cons, ← clean, ih]
      · rw [if_neg h]
        have hc : c.isDigit = false := by
          cases hcd : c.isDigit
          · rfl
          · exact absurd (by rw [keepChar, hcd]; simp) h
        rw [← clean, ih, List.any_cons, hc]
        simp

/-- C6: the third ("European comma-decimal") pattern of the parser is
unreachable as a distinct branch: for every input string `parse_price`
agrees with `parse_priceNoEuro`, the same parser with the third pattern
removed.  Pattern 1 already matches whenever the cleaned text holds a
digit and its match always converts with float, while pattern 3 cannot
match a digit-free text. -/
theorem C6_euro_pattern_dead (s : String) : parse_price s = parse_priceNoEuro s := by
  rw [parse_price, parse_priceNoEuro]
  by_cases he : s.data.isEmpty
  · rw [if_pos he, if_pos he]
  · rw [if_neg he, if_neg he, price_patterns]
    cases h1 : pat1Match (clean s.data) with
    | some m =>
        obtain ⟨v, hv⟩ := pat1Match_parses _ _ h1
        simp [runPatterns, tryPat, h1, hv]
    | none =>
        have hsk := (pat1Match_none_iff _).mp h1
        have hnd := (skipNon_nil_iff _).mp hsk
        have h2 := pat2Match_none _ hsk
        have h3 := pat3Match_none _ hnd
        simp [runPatterns, tryPat, h1, h2, h3]

/-- C9: `parse_price` returns a number exactly when its input contains at
least one digit character: digit-bearing text always parses to some
value, digit-free text (including the empty string) always fails. -/
theorem C9_parse_iff_digit (s : String) :
    (parse_price s).isSome = s.data.any Char.isDigit := by
  rw [parse_price]
  by_cases he : s.data.isEmpty
  · rw [if_pos he]
    have hnil : s.data = [] := by simpa using he
    rw [hnil]
    rfl
  · rw [if_neg he, price_patterns, ← clean_any_digit]
    cases h1 : pat1Match (clean s.data) with
    | some m =>
        obtain ⟨v, hv⟩ := pat1Match_parses _ _ h1
        have hd : (clean s.data).any Char.isDigit = true := by
          cases hany : (clean s.data).any Char.isDigit
          · have hcontra : pat1Match (clean s.data) = none := by
              rw [pat1Match_none_iff, skipNon_nil_iff]
              exact hany
            rw [hcontra] at h1
            exact absurd h1 (by simp)
          · rfl
        rw [hd]
        simp [runPatterns, tryPat, h1, hv]
    | none =>
        have hsk := (pat1Match_none_iff _).mp h1
        have hnd := (skipNon_nil_iff _).mp hsk
        have h2 := pat2Match_none _ hsk
        have h3 := pat3Match_none _ hnd
        rw [hnd]
        simp [runPatterns, tryPat, h1, h2, h3]

theorem keepChar_of_digit (c : Char) (h : c.isDigit = true) : keepChar c = true := by
  simp [keepChar, h]

theorem clean_of_kept (l : List Char) (h : ∀ c ∈ l, keepChar c = true) : clean l = l :=
  List.filter_eq_self.mpr h

theorem mem_commaGroups (gs : List (List Char)) (x : Char) (hx : x ∈ commaGroups gs) :
    x = ',' ∨ ∃ g ∈ gs, x ∈ g := by
  induction gs with
  | nil => simp [commaGroups] at hx
  | cons g gs ih =>
      rw [commaGroups] at hx
      rcases List.mem_cons.mp hx with rfl | hx
      · exact Or.inl rfl
      · rcases List.mem_append.mp hx with hx | hx
        · exact Or.inr ⟨g, List.mem_cons_self g gs, hx⟩
        · rcases ih hx with h | ⟨g2, hg2, hxg⟩
          · exact Or.inl h
          · exact Or.inr ⟨g2, List.mem_cons_of_mem _ hg2, hxg⟩

theorem flatGroups_digits (gs : List (List Char))
    (hgs : ∀ g ∈ gs, ∀ c ∈ g, c.isDigit = true) :
    ∀ x ∈ flatGroups gs, x.isDigit = true := by
  induction gs with
  | nil => simp [flatGroups]
  | cons g gs ih =>
      intro x hx
      rw [flatGroups] at hx
      rcases List.mem_append.mp hx with hx | hx
      · exact hgs g (List.mem_cons_self g gs) x hx
      · exact ih (fun g2 hg2 => hgs g2 (List.mem_cons_of_mem _ hg2)) x hx

theorem removeCommas_commaGroups (gs : List (List Char))
    (hgs : ∀ g ∈ gs, ∀ c ∈ g, c.isDigit = true) :
    removeCommas (commaGroups gs) = flatGroups gs := by
  induction gs with
  | nil => rfl
  | cons g gs ih =>
      rw [commaGroups, flatGroups, removeCommas, List.filter_cons, if_neg (by simp),
        List.filter_append, ← removeCommas, ← removeCommas,
        removeCommas_of_digits g (hgs g (List.mem_cons_self g gs)),
        ih (fun g2 hg2 => hgs g2 (List.mem_cons_of_mem _ hg2))]

theorem takeDigs_CG (gs : List (List Char)) (d : List Char) (hd : takeDigs d = []) :
    takeDigs (commaGroups gs ++ d) = [] := by
  cases gs with
  | nil => simpa [commaGroups] using hd
  | cons g gs => rw [commaGroups, List.cons_append, takeDigs_cons_not _ _ (by decide)]

theorem dropDigs_CG (gs : List (List Char)) (d : List Char) (hd : dropDigs d = d) :
    dropDigs (commaGroups gs ++ d) = commaGroups gs ++ d := by
  cases gs with
  | nil => simpa [commaGroups] using hd
  | cons g gs => rw [commaGroups, List.cons_append, dropDigs_cons_not _ _ (by decide)]

theorem groupsLoop_cons (a b c : Char) (r : List Char)
    (ha : a.isDigit = true) (hb : b.isDigit = true) (hc : c.isDigit = true) :
    groupsLoop (',' :: a :: b :: c :: r) =
      (',' :: a :: b :: c :: (groupsLoop r).1, (groupsLoop r).2) := by
  rw [groupsLoop, if_pos (by simp [ha, hb, hc])]

theorem groupsLoop_CG (gs : List (List Char)) (t : List Char)
    (hgs : ∀ g ∈ gs, g.length = 3 ∧ ∀ c ∈ g, c.isDigit = true)
    (ht : groupsLoop t = ([], t)) :
    groupsLoop (commaGroups gs ++ t) = (commaGroups gs, t) := by
  induction gs with
  | nil => simpa [commaGroups] using ht
  | cons g gs ih =>
      obtain ⟨hlen, hdig⟩ := hgs g (List.mem_cons_self g gs)
      obtain ⟨a, b, c, rfl⟩ : ∃ a b c, g = [a, b, c] := by
        cases g with
        | nil => simp at hlen
        | cons a g1 =>
            cases g1 with
            | nil => simp at hlen
            | cons b g2 =>
                cases g2 with
                | nil => simp at hlen
                | cons c g3 =>
                    cases g3 with
                    | nil => exact ⟨a, b, c, rfl⟩
                    | cons d g4 => simp [List.length_cons] at hlen
      have hstep : commaGroups ([a, b, c] :: gs) ++ t =
          ',' :: a :: b :: c :: (commaGroups gs ++ t) := by
        simp [commaGroups]
      rw [hstep, groupsLoop_cons a b c _ (hdig a (by simp)) (hdig b (by simp))
        (hdig c (by simp)), ih (fun g2 hg2 => hgs g2 (List.mem_cons_of_mem _ hg2))]
      simp [commaGroups]

theorem decimalVal_eq (ip fp : List Char) :
    decimalVal ip fp = (digitsNat ip : ℚ) + (digitsNat fp : ℚ) / (10 : ℚ) ^ fp.length := by
  rw [decimalVal, Rat.mkRat_eq_div]
  have h10 : ((10 : ℚ) ^ fp.length) ≠ 0 := by positivity
  push_cast
  field_simp

/-- C3: parsing a thousands-grouped dot-decimal amount (one currency
symbol character, one to three digits, comma-led groups of three digits,
a dot and two fraction digits) returns exactly the number obtained by
dropping the symbol and the group commas: the concatenated integer
digits plus the two fraction digits over 100. -/
theorem C3_grouped_format (sym : Char) (g0 : List Char) (gs : List (List Char))
    (d1 d2 : Char) (hsym : keepChar sym = false)
    (h0ne : g0 ≠ []) (h0len : g0.length ≤ 3) (h0d : ∀ c ∈ g0, c.isDigit = true)
    (hgs : ∀ g ∈ gs, g.length = 3 ∧ ∀ c ∈ g, c.isDigit = true)
    (hd1 : d1.isDigit = true) (hd2 : d2.isDigit = true) :
    parse_price ⟨sym :: (g0 ++ commaGroups gs ++ '.' :: [d1, d2])⟩ =
      some ((digitsNat (g0 ++ flatGroups gs) : ℚ) +
        (digitsNat [d1, d2] : ℚ) / 100) := by
  obtain ⟨c0, g0t, rfl⟩ : ∃ c0 g0t, g0 = c0 :: g0t := by
    cases g0 with
    | nil => exact absurd rfl h0ne
    | cons a t => exact ⟨a, t, rfl⟩
  have hc0 : c0.isDigit = true := h0d c0 (List.mem_cons_self c0 g0t)
  have hkept : ∀ x ∈ (c0 :: g0t) ++ commaGroups gs ++ '.' :: [d1, d2],
      keepChar x = true := by
    intro x hx
    rcases List.mem_append.mp hx with hx | hx
    · rcases List.mem_append.mp hx with hx' | hx'
      · exact keepChar_of_digit x (h0d x hx')
      · rcases mem_commaGroups gs x hx' with rfl | ⟨g, hg, hxg⟩
        · decide
        · exact keepChar_of_digit x ((hgs g hg).2 x hxg)
    · rcases List.mem_cons.mp hx with rfl | hx2
      · decide
      rcases List.mem_cons.mp hx2 with rfl | hx3
      · exact keepChar_of_digit x hd1
      rcases List.mem_cons.mp hx3 with rfl | hx4
      · exact keepChar_of_digit x hd2
      · simp at hx4
  have hclean : clean (sym :: ((c0 :: g0t) ++ commaGroups gs ++ '.' :: [d1, d2])) =
      (c0 :: g0t) ++ commaGroups gs ++ '.' :: [d1, d2] := by
    rw [clean, List.filter_cons, if_neg (by simp [hsym]), ← clean, clean_of_kept _ hkept]
  have hskip : skipNon ((c0 :: g0t) ++ commaGroups gs ++ '.' :: [d1, d2]) =
      (c0 :: g0t) ++ commaGroups gs ++ '.' :: [d1, d2] := by
    rw [List.cons_append, List.cons_append, skipNon, if_pos hc0]
  have htake : takeDigs ((c0 :: g0t) ++ commaGroups gs ++ '.' :: [d1, d2]) =
      c0 :: g0t := by
    rw [List.append_assoc, takeDigs_append _ _ h0d,
      takeDigs_CG _ _ (takeDigs_cons_not _ _ (by decide)), List.append_nil]
  have hdrop : dropDigs ((c0 :: g0t) ++ commaGroups gs ++ '.' :: [d1, d2]) =
      commaGroups gs ++ '.' :: [d1, d2] := by
    rw [List.append_assoc, dropDigs_append _ _ h0d,
      dropDigs_CG _ _ (dropDigs_cons_not _ _ (by decide))]
  have hGL : groupsLoop (commaGroups gs ++ '.' :: [d1, d2]) =
      (commaGroups gs, '.' :: [d1, d2]) :=
    groupsLoop_CG gs _ hgs rfl
  have hGL1 : (groupsLoop (commaGroups gs ++ '.' :: [d1, d2])).1 = commaGroups gs := by
    rw [hGL]
  have hGL2 : (groupsLoop (commaGroups gs ++ '.' :: [d1, d2])).2 = '.' :: [d1, d2] := by
    rw [hGL]
  have htail : tailPart ('.' :: [d1, d2]) = '.' :: [d1, d2] := by
    simp [tailPart, takeDigs, hd1, hd2]
  have hpat1 : pat1Match ((c0 :: g0t) ++ commaGroups gs ++ '.' :: [d1, d2]) =
      some ((c0 :: g0t) ++ commaGroups gs ++ '.' :: [d1, d2]) := by
    rw [pat1Match, hskip, if_neg (by simp), htake, hdrop, hGL1, hGL2, htail]
  have hfp : ∀ x ∈ [d1, d2], x.isDigit = true := by
    intro x hx
    rcases List.mem_cons.mp hx with rfl | hx2
    · exact hd1
    rcases List.mem_cons.mp hx2 with rfl | hx3
    · exact hd2
    · simp at hx3
  have hrcdot : removeCommas ('.' :: [d1, d2]) = '.' :: [d1, d2] := by
    rw [removeCommas, List.filter_cons, if_pos (by decide)]
    exact congrArg _ (removeCommas_of_digits [d1, d2] hfp)
  have hA : ∀ x ∈ (c0 :: g0t) ++ flatGroups gs, x.isDigit = true := by
    intro x hx
    rcases List.mem_append.mp hx with hx | hx
    · exact h0d x hx
    · exact flatGroups_digits gs (fun g hg => (hgs g hg).2) x hx
  have hfinal : pyFloat (removeCommas
        ((c0 :: g0t) ++ commaGroups gs ++ '.' :: [d1, d2])) =
      some (decimalVal ((c0 :: g0t) ++ flatGroups gs) [d1, d2]) := by
    rw [removeCommas_append3 _ _ _ h0d,
      removeCommas_commaGroups gs (fun g hg => (hgs g hg).2), hrcdot]
    exact pyFloat_digits_dot _ _ hA (by simp) hfp
  have hdata : (⟨sym :: ((c0 :: g0t) ++ commaGroups gs ++ '.' :: [d1, d2])⟩ :
      String).data = sym :: ((c0 :: g0t) ++ commaGroups gs ++ '.' :: [d1, d2]) := rfl
  rw [parse_price, hdata, if_neg (by simp), hclean, price_patterns]
  simp only [runPatterns, tryPat, hpat1, hfinal]
  rw [decimalVal_eq]
  have hlen2 : ([d1, d2] : List Char).length = 2 := rfl
  rw [hlen2]
  norm_num

theorem C3_grouped_format_witness :
    parse_price ⟨'$' :: (['1'] ++ commaGroups [['2', '3', '4']] ++ '.' :: ['5', '6'])⟩ =
      some ((digitsNat (['1'] ++ flatGroups [['2', '3', '4']]) : ℚ) +
        (digitsNat ['5', '6'] : ℚ) / 100) ∧
    digitsNat (['1'] ++ flatGroups [['2', '3', '4']]) = 1234 ∧
    digitsNat ['5', '6'] = 56 :=
  ⟨C3_grouped_format '$' ['1'] [['2', '3', '4']] '5' '6' (by decide) (by decide)
    (by decide) (by decide) (by decide) (by decide) (by decide),
   by decide, by decide⟩

theorem mkRat_one_hundred : (mkRat 1 100 : ℚ) = 1/100 := by
  rw [Rat.mkRat_eq_div]
  norm_num

theorem findSome?_cons_some {α β : Type} (f : α → Option β) (a : α) (l : List α)
    (b : β) (h : f a = some b) : (a :: l).findSome? f = some b := by
  simp [List.findSome?, h]

theorem findSome?_cons_none {α β : Type} (f : α → Option β) (a : α) (l : List α)
    (h : f a = none) : (a :: l).findSome? f = l.findSome? f := by
  simp [List.findSome?, h]

theorem findSome?_mem {α β : Type} (f : α → Option β) (l : List α) (b : β)
    (h : l.findSome? f = some b) : ∃ a ∈ l, f a = some b := by
  induction l with
  | nil => simp [List.findSome?] at h
  | cons a t ih =>
      cases hfa : f a with
      | some x =>
          rw [findSome?_cons_some f a t x hfa] at h
          injection h with h
          exact ⟨a, List.mem_cons_self a t, by rw [hfa, h]⟩
      | none =>
          rw [findSome?_cons_none f a t hfa] at h
          obtain ⟨x, hx, hfx⟩ := ih h
          exact ⟨x, List.mem_cons_of_mem _ hx, hfx⟩

theorem candidate_validates (t : String) (p : ℚ) (h : candidate t = some p) :
    mkRat 1 100 ≤ p ∧ p ≤ 50000 := by
  simp only [candidate] at h
  cases hp : parse_price t with
  | none => rw [hp] at h; exact absurd h (by simp)
  | some q =>
      rw [hp] at h
      simp only [] at h
      by_cases hc : q ≠ 0 ∧ validate_price q = true
      · rw [if_pos hc] at h
        injection h with h
        subst h
        have hv := hc.2
        rw [validate_price, decide_eq_true_eq] at hv
        exact hv
      · rw [if_neg hc] at h
        exact absurd h (by simp)

/-- C1: for every retry budget and fetch environment, whenever
`get_price` returns a numeric price rather than the failure value
`none`, that price satisfies the validated bound `0.01 ≤ price ≤ 50000`;
the loop can only return a price that passed `validate_price`. -/
theorem C1_returned_price_validated (attempts : List FetchResult) (p : ℚ)
    (h : get_price attempts = some p) : 1/100 ≤ p ∧ p ≤ 50000 := by
  induction attempts with
  | nil => exact absurd h (by simp [get_price])
  | cons a rest ih =>
      cases a with
      | err =>
          rw [get_price] at h
          exact ih h
      | ok text soup =>
          rw [get_price] at h
          by_cases hb : is_blocked text = true
          · rw [if_pos hb] at h
            exact ih h
          · rw [if_neg hb] at h
            cases hf : find_price soup with
            | some q =>
                rw [hf] at h
                injection h with h
                subst h
                obtain ⟨sel, _, hsel⟩ := findSome?_mem _ _ _ hf
                obtain ⟨t, _, ht⟩ := findSome?_mem _ _ _ hsel
                have hv := candidate_validates _ _ ht
                rw [mkRat_one_hundred] at hv
                exact hv
            | none =>
                rw [hf] at h
                exact ih h

theorem C1_returned_price_validated_witness :
    get_price [FetchResult.ok "A product page" soupW1] = some (mkRat 79999 100) ∧
    (1/100 ≤ (mkRat 79999 100 : ℚ) ∧ (mkRat 79999 100 : ℚ) ≤ 50000) :=
  ⟨by decide,
   C1_returned_price_validated [FetchResult.ok "A product page" soupW1]
     (mkRat 79999 100) (by decide)⟩

/-- C4: extraction follows the fixed selector order and stops at the
first candidate that both parses and validates: a successful search over
a prefix of the selector list is the result of the whole list, and in
particular when the 1st selector and the 3rd selector
(`span.a-offscreen` and `span#priceblock_ourprice`) both yield valid
distinct prices, `find_price` returns the 1st selector value. -/
theorem C4_selector_priority :
    (∀ (sels1 sels2 : List String) (soup : String → List String) (p : ℚ),
        sels1.findSome? (selResult soup) = some p →
        (sels1 ++ sels2).findSome? (selResult soup) = some p) ∧
    (∀ (soup : String → List String) (p q : ℚ),
        selResult soup "span.a-offscreen" = some p →
        selResult soup "span#priceblock_ourprice" = some q → p ≠ q →
        find_price soup = some p) := by
  constructor
  · intro sels1 sels2 soup p
    induction sels1 with
    | nil => intro h; exact absurd h (by simp [List.findSome?])
    | cons s rest ih =>
        intro h
        cases hs : selResult soup s with
        | some x =>
            rw [findSome?_cons_some _ _ _ _ hs] at h
            rw [List.cons_append, findSome?_cons_some _ _ _ _ hs]
            exact h
        | none =>
            rw [findSome?_cons_none _ _ _ hs] at h
            rw [List.cons_append, findSome?_cons_none _ _ _ hs]
            exact ih h
  · intro soup p q h1 h2 hpq
    rw [find_price, price_selectors]
    exact findSome?_cons_some _ _ _ _ h1

theorem C4_selector_priority_witness :
    selResult soupW4 "span.a-offscreen" = some (mkRat 1050 100) ∧
    selResult soupW4 "span#priceblock_ourprice" = some (mkRat 2075 100) ∧
    find_price soupW4 = some (mkRat 1050 100) :=
  ⟨by decide, by decide,
   C4_selector_priority.2 soupW4 (mkRat 1050 100) (mkRat 2075 100)
     (by decide) (by decide) (by decide)⟩

/-- C2 counterexample: three complete runs that fail for the three
different reasons (three network-layer errors, three bot-block pages,
three clean pages with no extractable price) all return the very same
value, so `get_price` does not return distinguishable failure values. -/
theorem C2_counterexample :
    is_blocked "Robot Check" = true ∧
    is_blocked "Some product page" = false ∧
    get_price runNetwork = get_price runBlocked ∧
    get_price runBlocked = get_price runNoPrice :=
  ⟨by decide, by decide, by decide, by decide⟩

/-- C2 (amended): `get_price` reports failure through the single
undifferentiated value `none` (Python `None`) in all three cases:
retries exhausted on network errors, retries exhausted on bot-block
pages, and no price found by any pattern; the caller cannot tell the
failure causes apart from the returned value. -/
theorem C2_failure_single_value :
    get_price runNetwork = none ∧ get_price runBlocked = none ∧
    get_price runNoPrice = none :=
  ⟨by decide, by decide, by decide⟩

end PriceTracker
